import Mathlib

/-!
Shallow embedding of the mapkhacon word segmenter.

The embedding follows `src/main.go` (the `Segmenter` version: `IsSpace`,
`IsLatin`, `Segmenter.BuildPath`, `Segmenter.Segment`) and
`src/prefixtree.go` (`MakePrefixTree`).  Runes are modelled as `Char`,
the Go `[]Edge` path array as a `List Edge` updated with `List.set`,
and the Go hash map `PrefixTree` as an association list with unique keys.
Go `int` values that are provably non-negative (indices and counts) are
modelled as `Nat`.
-/

/-- Edge of the word graph: `S`, `WordCount`, `UnkCount` as in `main.go`. -/
structure Edge where
  S : Nat
  WordCount : Nat
  UnkCount : Nat
deriving DecidableEq, Repr

/-- The zero value of `Edge` (Go's `Edge{}`). -/
def Edge.zero : Edge := ⟨0, 0, 0⟩

/-- Live dictionary-match pointer (`DictBuilderPointer` in `main.go`). -/
structure DictBuilderPointer where
  NodeID : Nat
  Offset : Nat
  IsFinal : Bool
deriving DecidableEq, Repr

/-- Key of the prefix-tree map (`PrefixTreeNode` in `prefixtree.go`). -/
structure PrefixTreeNode where
  NodeID : Nat
  Offset : Nat
  Ch : Char
deriving DecidableEq, Repr

/-- Value of the prefix-tree map (`PrefixTreePointer` in `prefixtree.go`). -/
structure PrefixTreePointer where
  ChildID : Nat
  IsFinal : Bool
deriving DecidableEq, Repr

/-- The prefix tree: Go's `map[PrefixTreeNode]PrefixTreePointer`, modelled
as an association list whose keys are unique by construction. -/
def PrefixTree : Type := List (PrefixTreeNode × PrefixTreePointer)

/-- Map lookup `dict[node]` (first matching key; keys are unique). -/
def ptLookup (t : PrefixTree) (k : PrefixTreeNode) : Option PrefixTreePointer :=
  match t with
  | [] => none
  | (k', v) :: rest => if k' = k then some v else ptLookup rest k

/-- Byte-wise string order of Go's `sort.Strings`, which on UTF-8 agrees
with lexicographic order of the codepoint sequences. -/
def charListLe : List Char → List Char → Bool
  | [], _ => true
  | _ :: _, [] => false
  | a :: as, b :: bs => if a < b then true else if b < a then false else charListLe as bs

/-- Stable insertion into a sorted word list. -/
def insertSorted (w : List Char) : List (List Char) → List (List Char)
  | [] => [w]
  | v :: vs => if charListLe w v then w :: v :: vs else v :: insertSorted w vs

/-- `sort.Strings` of `prefixtree.go`, on words as rune lists. -/
def sortWords : List (List Char) → List (List Char)
  | [] => []
  | w :: ws => insertSorted w (sortWords ws)

/-- Inner loop of `MakePrefixTree`: walk one word's runes, threading
`rowNo` and inserting missing transitions (position `j`, word index `i`). -/
def insertWordAux (i : Nat) (len : Nat) : PrefixTree → Nat → Nat → List Char → PrefixTree
  | tab, _, _, [] => tab
  | tab, rowNo, j, ch :: rest =>
    let isF : Bool := j + 1 == len
    let node : PrefixTreeNode := ⟨rowNo, j, ch⟩
    match ptLookup tab node with
    | none => insertWordAux i len ((node, ⟨i, isF⟩) :: tab) i (j + 1) rest
    | some child => insertWordAux i len tab child.ChildID (j + 1) rest

/-- Outer loop of `MakePrefixTree` over the sorted words with index `i`. -/
def buildTab : PrefixTree → Nat → List (List Char) → PrefixTree
  | tab, _, [] => tab
  | tab, i, w :: ws => buildTab (insertWordAux i w.length tab 0 0 w) (i + 1) ws

/-- `MakePrefixTree` of `prefixtree.go`: sorts, then inserts each word. -/
def MakePrefixTree (words : List (List Char)) : PrefixTree :=
  buildTab [] 0 (sortWords words)

/-- `IsSpace` of `main.go`. -/
def IsSpace (ch : Char) : Bool :=
  ch = ' ' || ch = '\n' || ch = '\t' || ch = '\"' ||
  ch = '(' || ch = ')' || ch = '“' || ch = '”'

/-- `IsLatin` of `main.go`. -/
def IsLatin (ch : Char) : Bool :=
  ('A' ≤ ch && ch ≤ 'Z') || ('a' ≤ ch && ch ≤ 'z')

/-- The scan state of `Segmenter.BuildPath`: the struct fields of
`Segmenter` that the loop reads and writes (`bestEdge`/`foundBestEdge`
are re-initialised at the top of every iteration and are modelled as
iteration-local). -/
structure SegState where
  path : List Edge
  leftBoundary : Nat
  startLatin : Nat
  foundLatin : Bool
  startSpace : Nat
  foundSpace : Bool
  pointers : List DictBuilderPointer
deriving Repr

/-- Pointer advancement: append a fresh `(0,0)` pointer, then compact in
place keeping only pointers with an outgoing transition for `ch`
(`main.go` lines 326-340). -/
def advancePointers (dict : PrefixTree) (ch : Char)
    (ptrs : List DictBuilderPointer) : List DictBuilderPointer :=
  (ptrs ++ [(⟨0, 0, false⟩ : DictBuilderPointer)]).filterMap fun (p : DictBuilderPointer) =>
    match ptLookup dict ⟨p.NodeID, p.Offset, ch⟩ with
    | none => none
    | some child => some (⟨child.ChildID, p.Offset + 1, child.IsFinal⟩ : DictBuilderPointer)

/-- Candidate edge of a final pointer: `s := 1 + i - p.Offset`,
costs derived from `path[s]` (`main.go` lines 344-350). -/
def mkDictEdge (path : List Edge) (i : Nat) (p : DictBuilderPointer) : Edge :=
  let s := 1 + i - p.Offset
  let source := path.getD s Edge.zero
  ⟨s, source.WordCount + 1, source.UnkCount⟩

/-- The candidate dictionary edges at position `i`: the final pointers, in
list order, mapped to edges. -/
def dictCandidates (path : List Edge) (i : Nat)
    (ptrs : List DictBuilderPointer) : List Edge :=
  (ptrs.filter (·.IsFinal)).map (mkDictEdge path i)

/-- The comparison of `main.go` lines 354-355: a candidate replaces the
current best iff it has strictly fewer unknowns, or equally many
unknowns and a word count less than or equal to the best's. -/
def betterEdge (cand best : Edge) : Bool :=
  cand.UnkCount < best.UnkCount ||
    (cand.UnkCount == best.UnkCount && cand.WordCount ≤ best.WordCount)

/-- Fold of `main.go` lines 342-360 over the candidate edges, threading
`(bestEdge, foundBestEdge)`. -/
def chooseBest : Edge × Bool → List Edge → Edge × Bool
  | b, [] => b
  | (best, found), e :: es =>
    if !found then chooseBest (e, true) es
    else if betterEdge e best then chooseBest (e, true) es
    else chooseBest (best, found) es

/-- Run edge for a closed Latin or space run starting at `start`
(`main.go` lines 249-254 and analogous blocks). -/
def runEdge (path : List Edge) (start : Nat) : Edge :=
  let source := path.getD start Edge.zero
  ⟨start, source.WordCount + 1, source.UnkCount⟩

/-- Unknown-fallback edge from `leftBoundary` (`main.go` lines 363-368). -/
def unkEdge (path : List Edge) (lb : Nat) : Edge :=
  let source := path.getD lb Edge.zero
  ⟨lb, source.WordCount + 1, source.UnkCount + 1⟩

/-- Flush a pending space run: write the run edge at position `i`, clear
the flag, move `leftBoundary` to `i`. -/
def flushSpace (i : Nat) (st : SegState) : SegState :=
  if st.foundSpace then
    { st with path := st.path.set i (runEdge st.path st.startSpace),
              foundSpace := false, leftBoundary := i }
  else st

/-- Flush a pending Latin run: write the run edge at position `i`, clear
the flag, move `leftBoundary` to `i`. -/
def flushLatin (i : Nat) (st : SegState) : SegState :=
  if st.foundLatin then
    { st with path := st.path.set i (runEdge st.path st.startLatin),
              foundLatin := false, leftBoundary := i }
  else st

/-- Open a Latin run at `i` unless one is already open. -/
def openLatin (i : Nat) (st : SegState) : SegState :=
  if st.foundLatin then st else { st with startLatin := i, foundLatin := true }

/-- Open a space run at `i` unless one is already open. -/
def openSpace (i : Nat) (st : SegState) : SegState :=
  if st.foundSpace then st else { st with startSpace := i, foundSpace := true }

/-- End-of-line closure of a Latin run (`main.go` lines 265-272): on the
last rune the run edge becomes the best edge and the flag is cleared. -/
def latinClose (length i : Nat) (st : SegState) : SegState × (Edge × Bool) :=
  if i == length - 1 then
    ({ st with foundLatin := false }, (runEdge st.path st.startLatin, true))
  else (st, (Edge.zero, false))

/-- End-of-line closure of a space run (`main.go` lines 294-301). -/
def spaceClose (length i : Nat) (st : SegState) : SegState × (Edge × Bool) :=
  if i == length - 1 then
    ({ st with foundSpace := false }, (runEdge st.path st.startSpace, true))
  else (st, (Edge.zero, false))

/-- Common tail of the loop body (`main.go` lines 363-372): fall back to
the unknown edge when no best edge was found, otherwise advance
`leftBoundary`; then write `path[i+1]`. -/
def finishStep (i : Nat) (st : SegState) (best : Edge × Bool) : SegState :=
  if best.2 then
    { st with leftBoundary := i + 1, path := st.path.set (i + 1) best.1 }
  else
    { st with path := st.path.set (i + 1) (unkEdge st.path st.leftBoundary) }

/-- The Latin branch of the loop body (`main.go` lines 245-272). -/
def stepLatin (length i : Nat) (st : SegState) : SegState :=
  let p := latinClose length i (openLatin i (flushSpace i st))
  finishStep i p.1 p.2

/-- The space branch of the loop body (`main.go` lines 274-301). -/
def stepSpace (length i : Nat) (st : SegState) : SegState :=
  let p := spaceClose length i (openSpace i (flushLatin i st))
  finishStep i p.1 p.2

/-- The text branch of the loop body (`main.go` lines 302-361): flush both
runs, advance the pointers, then fold the final pointers' candidate edges. -/
def stepText (dict : PrefixTree) (ch : Char) (i : Nat) (st : SegState) : SegState :=
  let st2 := flushLatin i (flushSpace i st)
  let ptrs := advancePointers dict ch st2.pointers
  let st3 := { st2 with pointers := ptrs }
  finishStep i st3 (chooseBest (Edge.zero, false) (dictCandidates st3.path i ptrs))

/-- One iteration of the `BuildPath` loop at index `i` on rune `ch`. -/
def step (dict : PrefixTree) (length i : Nat) (ch : Char) (st : SegState) : SegState :=
  if IsLatin ch then stepLatin length i st
  else if IsSpace ch then stepSpace length i st
  else stepText dict ch i st

/-- The `for i, ch := range line` loop of `BuildPath`. -/
def scan (dict : PrefixTree) (length : Nat) : SegState → Nat → List Char → SegState
  | st, _, [] => st
  | st, i, ch :: rest => scan dict length (step dict length i ch st) (i + 1) rest

/-- The reset block at the start of `BuildPath` (`main.go` lines 220-235):
the path is (re)filled with `length+1` zero edges, `leftBoundary`,
`startLatin`, `foundLatin` and `startSpace` are reset, the pointer list is
truncated to empty.  `foundSpace` is NOT reset: it keeps the value `fs0`
the segmenter carried from the previous call. -/
def initState (fs0 : Bool) (n : Nat) : SegState :=
  { path := List.replicate (n + 1) Edge.zero
    leftBoundary := 0
    startLatin := 0
    foundLatin := false
    startSpace := 0
    foundSpace := fs0
    pointers := [] }

/-- `Segmenter.BuildPath` run with carried `foundSpace` value `fs0`. -/
def BuildPathFrom (dict : PrefixTree) (fs0 : Bool) (line : List Char) : SegState :=
  scan dict line.length (initState fs0 line.length) 0 line

/-- `Segmenter.BuildPath` of a freshly constructed segmenter
(`foundSpace` is `false`, the zero value of the Go struct). -/
def BuildPath (dict : PrefixTree) (line : List Char) : SegState :=
  BuildPathFrom dict false line

/-- The token-collecting loop of `Segmenter.Segment` (`main.go` lines
205-216): walk the back pointers from `e` and emit `textRunes[s:e)`.
The Go loop writes into a buffer of `len(path)` cells from the right and
panics past that, so `fuel = len(path)` bounds every non-panicking run. -/
def collectTokens (path : List Edge) (line : List Char) : Nat → Nat → List (List Char)
  | 0, _ => []
  | _ + 1, 0 => []
  | fuel + 1, e + 1 =>
    let s := (path.getD (e + 1) Edge.zero).S
    collectTokens path line fuel s ++ [(line.drop s).take (e + 1 - s)]

/-- `Segmenter.Segment` of a freshly constructed segmenter. -/
def Segment (dict : PrefixTree) (line : List Char) : List (List Char) :=
  let path := (BuildPath dict line).path
  collectTokens path line path.length (path.length - 1)

/-- `Segmenter.Segment` with carried `foundSpace` value: returns the
tokens together with the `foundSpace` value the segmenter keeps for the
next call. -/
def SegmentFrom (dict : PrefixTree) (fs0 : Bool) (line : List Char) :
    List (List Char) × Bool :=
  let st := BuildPathFrom dict fs0 line
  (collectTokens st.path line st.path.length (st.path.length - 1), st.foundSpace)

/-- Successive `Segment` calls on one reused segmenter, threading the
carried `foundSpace` value through the calls. -/
def segmentAll (dict : PrefixTree) : Bool → List (List Char) → List (List (List Char))
  | _, [] => []
  | fs, l :: ls =>
    let r := SegmentFrom dict fs l
    r.1 :: segmentAll dict r.2 ls

/-! ## Basic facts about `List.getD` and `List.set` -/

lemma getD_set_self (l : List Edge) (i : Nat) (v : Edge) (h : i < l.length) :
    (l.set i v).getD i Edge.zero = v := by
  simp [List.getD_eq_getElem?_getD, List.getElem?_set_self, h]

lemma getD_set_ne (l : List Edge) (i j : Nat) (v : Edge) (h : i ≠ j) :
    (l.set i v).getD j Edge.zero = l.getD j Edge.zero := by
  simp [List.getD_eq_getElem?_getD, List.getElem?_set_ne h]

/-! ## The back-pointer chain invariant of `BuildPath` -/

/-- Cell `j` of the edge array is well formed: its back pointer moves
strictly left and its word count extends the source cell's by one. -/
def cellGood (path : List Edge) (j : Nat) : Prop :=
  (path.getD j Edge.zero).S < j ∧
  (path.getD (path.getD j Edge.zero).S Edge.zero).WordCount + 1 =
    (path.getD j Edge.zero).WordCount

/-- Cells `1..i` of the edge array are well formed. -/
def chainGood (path : List Edge) (i : Nat) : Prop :=
  ∀ j, 1 ≤ j → j ≤ i → cellGood path j

lemma chainGood_zero (path : List Edge) : chainGood path 0 := by
  intro j h1 h0
  omega

/-- Overwriting cell `i` with a well-formed value (the flush of a
Latin/space run) keeps cells `1..i` well formed. -/
lemma chainGood_set_over (path : List Edge) (i : Nat) (v : Edge)
    (hlen : i < path.length) (hch : chainGood path i) (hS : v.S < i)
    (hwc : (path.getD v.S Edge.zero).WordCount + 1 = v.WordCount) :
    chainGood (path.set i v) i := by
  intro j h1 hj
  rcases Nat.eq_or_lt_of_le hj with hji | hji
  · subst hji
    constructor
    · rw [getD_set_self path j v hlen]
      exact hS
    · rw [getD_set_self path j v hlen, getD_set_ne path j v.S v (by omega)]
      exact hwc
  · obtain ⟨hS', hwc'⟩ := hch j h1 (by omega)
    constructor
    · rw [getD_set_ne path i j v (by omega)]
      exact hS'
    · rw [getD_set_ne path i j v (by omega),
        getD_set_ne path i (path.getD j Edge.zero).S v (by omega)]
      exact hwc'

/-- Writing a well-formed value into cell `i+1` (the `path[i+1] :=
bestEdge` write) extends well-formedness to cells `1..i+1`. -/
lemma chainGood_set_next (path : List Edge) (i : Nat) (v : Edge)
    (hlen : i + 1 < path.length) (hch : chainGood path i) (hS : v.S < i + 1)
    (hwc : (path.getD v.S Edge.zero).WordCount + 1 = v.WordCount) :
    chainGood (path.set (i + 1) v) (i + 1) := by
  intro j h1 hj
  rcases Nat.eq_or_lt_of_le hj with hji | hji
  · subst hji
    constructor
    · rw [getD_set_self path (i + 1) v hlen]
      exact hS
    · rw [getD_set_self path (i + 1) v hlen, getD_set_ne path (i + 1) v.S v (by omega)]
      exact hwc
  · obtain ⟨hS', hwc'⟩ := hch j h1 (by omega)
    constructor
    · rw [getD_set_ne path (i + 1) j v (by omega)]
      exact hS'
    · rw [getD_set_ne path (i + 1) j v (by omega),
        getD_set_ne path (i + 1) (path.getD j Edge.zero).S v (by omega)]
      exact hwc'

/-- Scan invariant before processing index `i` of a line of `N` runes. -/
structure ScanInv (N i : Nat) (st : SegState) : Prop where
  plen : st.path.length = N + 1
  p0 : st.path.getD 0 Edge.zero = Edge.zero
  chain : chainGood st.path i
  lb : st.leftBoundary ≤ i
  sl : st.foundLatin = true → st.startLatin < i
  ss : st.foundSpace = true → st.startSpace < i

/-! ## Component facts about the step helpers -/

lemma flushSpace_foundSpace (i : Nat) (st : SegState) :
    (flushSpace i st).foundSpace = false := by
  unfold flushSpace
  split
  · rfl
  · rename_i h
    simpa using h

lemma flushSpace_foundLatin (i : Nat) (st : SegState) :
    (flushSpace i st).foundLatin = st.foundLatin := by
  unfold flushSpace
  split <;> rfl

lemma flushSpace_startLatin (i : Nat) (st : SegState) :
    (flushSpace i st).startLatin = st.startLatin := by
  unfold flushSpace
  split <;> rfl

lemma flushSpace_pointers (i : Nat) (st : SegState) :
    (flushSpace i st).pointers = st.pointers := by
  unfold flushSpace
  split <;> rfl

lemma flushLatin_foundLatin (i : Nat) (st : SegState) :
    (flushLatin i st).foundLatin = false := by
  unfold flushLatin
  split
  · rfl
  · rename_i h
    simpa using h

lemma flushLatin_foundSpace (i : Nat) (st : SegState) :
    (flushLatin i st).foundSpace = st.foundSpace := by
  unfold flushLatin
  split <;> rfl

lemma flushLatin_startSpace (i : Nat) (st : SegState) :
    (flushLatin i st).startSpace = st.startSpace := by
  unfold flushLatin
  split <;> rfl

lemma flushLatin_pointers (i : Nat) (st : SegState) :
    (flushLatin i st).pointers = st.pointers := by
  unfold flushLatin
  split <;> rfl

lemma openLatin_path (i : Nat) (st : SegState) : (openLatin i st).path = st.path := by
  unfold openLatin
  split <;> rfl

lemma openLatin_leftBoundary (i : Nat) (st : SegState) :
    (openLatin i st).leftBoundary = st.leftBoundary := by
  unfold openLatin
  split <;> rfl

lemma openLatin_pointers (i : Nat) (st : SegState) :
    (openLatin i st).pointers = st.pointers := by
  unfold openLatin
  split <;> rfl

lemma openLatin_foundSpace (i : Nat) (st : SegState) :
    (openLatin i st).foundSpace = st.foundSpace := by
  unfold openLatin
  split <;> rfl

lemma openLatin_startSpace (i : Nat) (st : SegState) :
    (openLatin i st).startSpace = st.startSpace := by
  unfold openLatin
  split <;> rfl

lemma openLatin_startLatin_le (i : Nat) (st : SegState)
    (h : st.foundLatin = true → st.startLatin ≤ i) :
    (openLatin i st).startLatin ≤ i := by
  unfold openLatin
  split
  · exact h ‹_›
  · exact Nat.le_refl i

lemma openSpace_path (i : Nat) (st : SegState) : (openSpace i st).path = st.path := by
  unfold openSpace
  split <;> rfl

lemma openSpace_leftBoundary (i : Nat) (st : SegState) :
    (openSpace i st).leftBoundary = st.leftBoundary := by
  unfold openSpace
  split <;> rfl

lemma openSpace_pointers (i : Nat) (st : SegState) :
    (openSpace i st).pointers = st.pointers := by
  unfold openSpace
  split <;> rfl

lemma openSpace_foundLatin (i : Nat) (st : SegState) :
    (openSpace i st).foundLatin = st.foundLatin := by
  unfold openSpace
  split <;> rfl

lemma openSpace_startLatin (i : Nat) (st : SegState) :
    (openSpace i st).startLatin = st.startLatin := by
  unfold openSpace
  split <;> rfl

lemma openSpace_startSpace_le (i : Nat) (st : SegState)
    (h : st.foundSpace = true → st.startSpace ≤ i) :
    (openSpace i st).startSpace ≤ i := by
  unfold openSpace
  split
  · exact h ‹_›
  · exact Nat.le_refl i

/-! ## Invariant preservation of the step helpers -/

lemma flushSpace_inv (N i : Nat) (st : SegState) (h : ScanInv N i st) (hiN : i ≤ N) :
    ScanInv N i (flushSpace i st) := by
  unfold flushSpace
  split
  · rename_i hfs
    have hss := h.ss hfs
    refine ⟨?_, ?_, ?_, ?_, ?_, ?_⟩
    · simp [List.length_set, h.plen]
    · show (st.path.set i (runEdge st.path st.startSpace)).getD 0 Edge.zero = Edge.zero
      rw [getD_set_ne st.path i 0 _ (by omega)]
      exact h.p0
    · exact chainGood_set_over st.path i (runEdge st.path st.startSpace)
        (by rw [h.plen]; omega) h.chain hss rfl
    · exact Nat.le_refl i
    · exact h.sl
    · intro hc
      cases hc
  · exact h

lemma flushLatin_inv (N i : Nat) (st : SegState) (h : ScanInv N i st) (hiN : i ≤ N) :
    ScanInv N i (flushLatin i st) := by
  unfold flushLatin
  split
  · rename_i hfl
    have hsl := h.sl hfl
    refine ⟨?_, ?_, ?_, ?_, ?_, ?_⟩
    · simp [List.length_set, h.plen]
    · show (st.path.set i (runEdge st.path st.startLatin)).getD 0 Edge.zero = Edge.zero
      rw [getD_set_ne st.path i 0 _ (by omega)]
      exact h.p0
    · exact chainGood_set_over st.path i (runEdge st.path st.startLatin)
        (by rw [h.plen]; omega) h.chain hsl rfl
    · exact Nat.le_refl i
    · intro hc
      cases hc
    · exact h.ss
  · exact h

/-! ## Facts about the best-edge fold and the pointer advance -/

lemma chooseBest_snd_true (cs : List Edge) : ∀ b : Edge, (chooseBest (b, true) cs).2 = true := by
  induction cs with
  | nil => intro b; rfl
  | cons c cs ih =>
    intro b
    show (if !true then chooseBest (c, true) cs
          else if betterEdge c b then chooseBest (c, true) cs
          else chooseBest (b, true) cs).2 = true
    simp only [Bool.not_true, Bool.false_eq_true, if_false]
    split
    · exact ih c
    · exact ih b

lemma chooseBest_true_mem (cs : List Edge) :
    ∀ b : Edge, (chooseBest (b, true) cs).1 = b ∨ (chooseBest (b, true) cs).1 ∈ cs := by
  induction cs with
  | nil => intro b; exact Or.inl rfl
  | cons c cs ih =>
    intro b
    show (if !true then chooseBest (c, true) cs
          else if betterEdge c b then chooseBest (c, true) cs
          else chooseBest (b, true) cs).1 = b ∨
         (if !true then chooseBest (c, true) cs
          else if betterEdge c b then chooseBest (c, true) cs
          else chooseBest (b, true) cs).1 ∈ c :: cs
    simp only [Bool.not_true, Bool.false_eq_true, if_false]
    split
    · rcases ih c with h | h
      · exact Or.inr (by rw [h]; exact List.mem_cons_self c cs)
      · exact Or.inr (List.mem_cons_of_mem c h)
    · rcases ih b with h | h
      · exact Or.inl h
      · exact Or.inr (List.mem_cons_of_mem c h)

lemma chooseBest_start_false (cs : List Edge) (c : Edge) :
    chooseBest (Edge.zero, false) (c :: cs) = chooseBest (c, true) cs := by
  show (if !false then chooseBest (c, true) cs
        else if betterEdge c Edge.zero then chooseBest (c, true) cs
        else chooseBest (Edge.zero, false) cs) = chooseBest (c, true) cs
  simp

lemma chooseBest_false_mem (cs : List Edge)
    (h2 : (chooseBest (Edge.zero, false) cs).2 = true) :
    (chooseBest (Edge.zero, false) cs).1 ∈ cs := by
  cases cs with
  | nil => exact absurd h2 (by simp [chooseBest])
  | cons c cs =>
    rw [chooseBest_start_false]
    rcases chooseBest_true_mem cs c with h | h
    · rw [h]
      exact List.mem_cons_self c cs
    · exact List.mem_cons_of_mem c h

lemma advancePointers_offset (dict : PrefixTree) (ch : Char)
    (ptrs : List DictBuilderPointer) (p : DictBuilderPointer)
    (hp : p ∈ advancePointers dict ch ptrs) : 1 ≤ p.Offset := by
  unfold advancePointers at hp
  rw [List.mem_filterMap] at hp
  obtain ⟨q, _, hq⟩ := hp
  rcases hcase : ptLookup dict ⟨q.NodeID, q.Offset, ch⟩ with _ | child
  · rw [hcase] at hq
    exact absurd hq (by simp)
  · rw [hcase] at hq
    have hpq := Option.some.inj hq
    rw [← hpq]
    exact Nat.succ_le_succ (Nat.zero_le _)

lemma dictCandidates_spec (path : List Edge) (i : Nat)
    (ptrs : List DictBuilderPointer)
    (hoff : ∀ p ∈ ptrs, 1 ≤ p.Offset) (e : Edge)
    (he : e ∈ dictCandidates path i ptrs) :
    e.S ≤ i ∧ (path.getD e.S Edge.zero).WordCount + 1 = e.WordCount := by
  unfold dictCandidates at he
  rw [List.mem_map] at he
  obtain ⟨p, hpmem, hpe⟩ := he
  have hp1 : 1 ≤ p.Offset := hoff p (List.mem_of_mem_filter hpmem)
  rw [← hpe]
  refine ⟨?_, rfl⟩
  show 1 + i - p.Offset ≤ i
  omega

/-! ## Invariant preservation of the step tail -/

lemma finishStep_inv (N i : Nat) (st : SegState) (best : Edge × Bool)
    (hplen : st.path.length = N + 1)
    (hp0 : st.path.getD 0 Edge.zero = Edge.zero)
    (hchain : chainGood st.path i)
    (hlb : st.leftBoundary ≤ i)
    (hiN : i < N)
    (hsl : st.foundLatin = true → st.startLatin ≤ i)
    (hss : st.foundSpace = true → st.startSpace ≤ i)
    (hbest : best.2 = true → best.1.S ≤ i ∧
      (st.path.getD best.1.S Edge.zero).WordCount + 1 = best.1.WordCount) :
    ScanInv N (i + 1) (finishStep i st best) := by
  unfold finishStep
  split
  · rename_i hb
    obtain ⟨hS, hwc⟩ := hbest hb
    refine ⟨?_, ?_, ?_, ?_, ?_, ?_⟩
    · simp [List.length_set, hplen]
    · show (st.path.set (i + 1) best.1).getD 0 Edge.zero = Edge.zero
      rw [getD_set_ne st.path (i + 1) 0 _ (by omega)]
      exact hp0
    · exact chainGood_set_next st.path i best.1 (by rw [hplen]; omega) hchain
        (by omega) hwc
    · exact Nat.le_refl (i + 1)
    · intro hc
      exact Nat.lt_succ_of_le (hsl hc)
    · intro hc
      exact Nat.lt_succ_of_le (hss hc)
  · refine ⟨?_, ?_, ?_, ?_, ?_, ?_⟩
    · simp [List.length_set, hplen]
    · show (st.path.set (i + 1) (unkEdge st.path st.leftBoundary)).getD 0 Edge.zero = Edge.zero
      rw [getD_set_ne st.path (i + 1) 0 _ (by omega)]
      exact hp0
    · exact chainGood_set_next st.path i (unkEdge st.path st.leftBoundary)
        (by rw [hplen]; omega) hchain (by show st.leftBoundary < i + 1; omega) rfl
    · exact Nat.le_succ_of_le hlb
    · intro hc
      exact Nat.lt_succ_of_le (hsl hc)
    · intro hc
      exact Nat.lt_succ_of_le (hss hc)

/-! ## Invariant preservation of the three loop branches -/

lemma latinClose_last (length i : Nat) (st : SegState) (h : (i == length - 1) = true) :
    latinClose length i st =
      ({ st with foundLatin := false }, (runEdge st.path st.startLatin, true)) := by
  simp [latinClose, h]

lemma latinClose_mid (length i : Nat) (st : SegState) (h : (i == length - 1) = false) :
    latinClose length i st = (st, (Edge.zero, false)) := by
  simp [latinClose, h]

lemma spaceClose_last (length i : Nat) (st : SegState) (h : (i == length - 1) = true) :
    spaceClose length i st =
      ({ st with foundSpace := false }, (runEdge st.path st.startSpace, true)) := by
  simp [spaceClose, h]

lemma spaceClose_mid (length i : Nat) (st : SegState) (h : (i == length - 1) = false) :
    spaceClose length i st = (st, (Edge.zero, false)) := by
  simp [spaceClose, h]

lemma stepLatin_inv (N i : Nat) (st : SegState) (h : ScanInv N i st) (hiN : i < N) :
    ScanInv N (i + 1) (stepLatin N i st) := by
  have h1 : ScanInv N i (flushSpace i st) := flushSpace_inv N i st h (Nat.le_of_lt hiN)
  have h2sl : (openLatin i (flushSpace i st)).startLatin ≤ i :=
    openLatin_startLatin_le i (flushSpace i st) (fun hf => Nat.le_of_lt (h1.sl hf))
  have h2fs : (openLatin i (flushSpace i st)).foundSpace = false := by
    rw [openLatin_foundSpace, flushSpace_foundSpace]
  unfold stepLatin
  cases hcond : (i == N - 1) with
  | true =>
    rw [latinClose_last N i _ hcond]
    refine finishStep_inv N i _ _ ?_ ?_ ?_ ?_ hiN ?_ ?_ ?_
    · show (openLatin i (flushSpace i st)).path.length = N + 1
      rw [openLatin_path]
      exact h1.plen
    · show (openLatin i (flushSpace i st)).path.getD 0 Edge.zero = Edge.zero
      rw [openLatin_path]
      exact h1.p0
    · show chainGood (openLatin i (flushSpace i st)).path i
      rw [openLatin_path]
      exact h1.chain
    · show (openLatin i (flushSpace i st)).leftBoundary ≤ i
      rw [openLatin_leftBoundary]
      exact h1.lb
    · intro hc
      cases hc
    · intro hc
      rw [show ({ openLatin i (flushSpace i st) with foundLatin := false } : SegState).foundSpace
            = (openLatin i (flushSpace i st)).foundSpace from rfl, h2fs] at hc
      cases hc
    · intro _
      exact ⟨h2sl, rfl⟩
  | false =>
    rw [latinClose_mid N i _ hcond]
    refine finishStep_inv N i _ _ ?_ ?_ ?_ ?_ hiN ?_ ?_ ?_
    · rw [openLatin_path]
      exact h1.plen
    · rw [openLatin_path]
      exact h1.p0
    · rw [openLatin_path]
      exact h1.chain
    · rw [openLatin_leftBoundary]
      exact h1.lb
    · intro _
      exact h2sl
    · intro hc
      rw [h2fs] at hc
      cases hc
    · intro hc
      cases hc

lemma stepSpace_inv (N i : Nat) (st : SegState) (h : ScanInv N i st) (hiN : i < N) :
    ScanInv N (i + 1) (stepSpace N i st) := by
  have h1 : ScanInv N i (flushLatin i st) := flushLatin_inv N i st h (Nat.le_of_lt hiN)
  have h2ss : (openSpace i (flushLatin i st)).startSpace ≤ i :=
    openSpace_startSpace_le i (flushLatin i st) (fun hf => Nat.le_of_lt (h1.ss hf))
  have h2fl : (openSpace i (flushLatin i st)).foundLatin = false := by
    rw [openSpace_foundLatin, flushLatin_foundLatin]
  unfold stepSpace
  cases hcond : (i == N - 1) with
  | true =>
    rw [spaceClose_last N i _ hcond]
    refine finishStep_inv N i _ _ ?_ ?_ ?_ ?_ hiN ?_ ?_ ?_
    · show (openSpace i (flushLatin i st)).path.length = N + 1
      rw [openSpace_path]
      exact h1.plen
    · show (openSpace i (flushLatin i st)).path.getD 0 Edge.zero = Edge.zero
      rw [openSpace_path]
      exact h1.p0
    · show chainGood (openSpace i (flushLatin i st)).path i
      rw [openSpace_path]
      exact h1.chain
    · show (openSpace i (flushLatin i st)).leftBoundary ≤ i
      rw [openSpace_leftBoundary]
      exact h1.lb
    · intro hc
      rw [show ({ openSpace i (flushLatin i st) with foundSpace := false } : SegState).foundLatin
            = (openSpace i (flushLatin i st)).foundLatin from rfl, h2fl] at hc
      cases hc
    · intro hc
      cases hc
    · intro _
      exact ⟨h2ss, rfl⟩
  | false =>
    rw [spaceClose_mid N i _ hcond]
    refine finishStep_inv N i _ _ ?_ ?_ ?_ ?_ hiN ?_ ?_ ?_
    · rw [openSpace_path]
      exact h1.plen
    · rw [openSpace_path]
      exact h1.p0
    · rw [openSpace_path]
      exact h1.chain
    · rw [openSpace_leftBoundary]
      exact h1.lb
    · intro hc
      rw [h2fl] at hc
      cases hc
    · intro _
      exact h2ss
    · intro hc
      cases hc

lemma stepText_inv (dict : PrefixTree) (ch : Char) (N i : Nat) (st : SegState)
    (h : ScanInv N i st) (hiN : i < N) :
    ScanInv N (i + 1) (stepText dict ch i st) := by
  have h1 : ScanInv N i (flushSpace i st) := flushSpace_inv N i st h (Nat.le_of_lt hiN)
  have h2 : ScanInv N i (flushLatin i (flushSpace i st)) :=
    flushLatin_inv N i _ h1 (Nat.le_of_lt hiN)
  have h2fl : (flushLatin i (flushSpace i st)).foundLatin = false :=
    flushLatin_foundLatin i _
  have h2fs : (flushLatin i (flushSpace i st)).foundSpace = false := by
    rw [flushLatin_foundSpace, flushSpace_foundSpace]
  unfold stepText
  refine finishStep_inv N i _ _ ?_ ?_ ?_ ?_ hiN ?_ ?_ ?_
  · exact h2.plen
  · exact h2.p0
  · exact h2.chain
  · exact h2.lb
  · intro hc
    rw [show ({ flushLatin i (flushSpace i st) with
          pointers := advancePointers dict ch (flushLatin i (flushSpace i st)).pointers } :
            SegState).foundLatin = (flushLatin i (flushSpace i st)).foundLatin from rfl,
        h2fl] at hc
    cases hc
  · intro hc
    rw [show ({ flushLatin i (flushSpace i st) with
          pointers := advancePointers dict ch (flushLatin i (flushSpace i st)).pointers } :
            SegState).foundSpace = (flushLatin i (flushSpace i st)).foundSpace from rfl,
        h2fs] at hc
    cases hc
  · intro hb
    have hmem := chooseBest_false_mem _ hb
    exact dictCandidates_spec _ i _
      (fun p hp => advancePointers_offset dict ch _ p hp) _ hmem

lemma step_inv (dict : PrefixTree) (N i : Nat) (ch : Char) (st : SegState)
    (h : ScanInv N i st) (hiN : i < N) : ScanInv N (i + 1) (step dict N i ch st) := by
  unfold step
  split
  · exact stepLatin_inv N i st h hiN
  · split
    · exact stepSpace_inv N i st h hiN
    · exact stepText_inv dict ch N i st h hiN

/-! ## The scan invariant, from start to finish -/

lemma initState_inv (fs0 : Bool) (N : Nat) (h0 : fs0 = false) :
    ScanInv N 0 (initState fs0 N) := by
  refine ⟨?_, ?_, chainGood_zero _, Nat.le_refl 0, ?_, ?_⟩
  · simp [initState]
  · simp [initState, List.getD_eq_getElem?_getD, List.getElem?_replicate]
  · intro hc
    cases hc
  · intro hc
    rw [show (initState fs0 N).foundSpace = fs0 from rfl, h0] at hc
    cases hc

lemma scan_inv (dict : PrefixTree) (N : Nat) :
    ∀ (cs : List Char) (i : Nat) (st : SegState),
      i + cs.length = N → ScanInv N i st → ScanInv N N (scan dict N st i cs) := by
  intro cs
  induction cs with
  | nil =>
    intro i st hlen hinv
    simp at hlen
    rw [show scan dict N st i [] = st from rfl]
    exact hlen ▸ hinv
  | cons c cs ih =>
    intro i st hlen hinv
    rw [show scan dict N st i (c :: cs) = scan dict N (step dict N i c st) (i + 1) cs from rfl]
    refine ih (i + 1) _ (by simp at hlen ⊢; omega) ?_
    exact step_inv dict N i c st hinv (by simp at hlen; omega)

/-- The edge array built for a line satisfies the chain invariant. -/
lemma buildPath_scanInv (dict : PrefixTree) (line : List Char) :
    ScanInv line.length line.length (BuildPath dict line) := by
  unfold BuildPath BuildPathFrom
  exact scan_inv dict line.length line 0 (initState false line.length) (by simp)
    (initState_inv false line.length rfl)

/-! ## Reconstruction: concatenation and token count -/

lemma collectTokens_flatten (path : List Edge) (line : List Char) (N : Nat)
    (hch : chainGood path N) :
    ∀ (fuel e : Nat), e ≤ N → e ≤ fuel →
      (collectTokens path line fuel e).flatten = line.take e := by
  intro fuel
  induction fuel with
  | zero =>
    intro e heN hef
    have he0 : e = 0 := Nat.le_zero.mp hef
    rw [he0]
    rfl
  | succ fuel ih =>
    intro e heN hef
    cases e with
    | zero => rfl
    | succ e =>
      obtain ⟨hS, _⟩ := hch (e + 1) (Nat.succ_le_succ (Nat.zero_le e)) heN
      rw [show collectTokens path line (fuel + 1) (e + 1) =
            collectTokens path line fuel (path.getD (e + 1) Edge.zero).S ++
              [(line.drop (path.getD (e + 1) Edge.zero).S).take
                (e + 1 - (path.getD (e + 1) Edge.zero).S)] from rfl]
      rw [List.flatten_append]
      rw [ih (path.getD (e + 1) Edge.zero).S (by omega) (by omega)]
      rw [show ([(line.drop (path.getD (e + 1) Edge.zero).S).take
              (e + 1 - (path.getD (e + 1) Edge.zero).S)] : List (List Char)).flatten
            = (line.drop (path.getD (e + 1) Edge.zero).S).take
                (e + 1 - (path.getD (e + 1) Edge.zero).S) by simp]
      rw [← List.take_add]
      congr 1
      omega

lemma collectTokens_length (path : List Edge) (line : List Char) (N : Nat)
    (hch : chainGood path N) (hp0 : path.getD 0 Edge.zero = Edge.zero) :
    ∀ (fuel e : Nat), e ≤ N → e ≤ fuel →
      (collectTokens path line fuel e).length = (path.getD e Edge.zero).WordCount := by
  intro fuel
  induction fuel with
  | zero =>
    intro e heN hef
    have he0 : e = 0 := Nat.le_zero.mp hef
    rw [he0, hp0]
    rfl
  | succ fuel ih =>
    intro e heN hef
    cases e with
    | zero =>
      rw [hp0]
      rfl
    | succ e =>
      obtain ⟨hS, hwc⟩ := hch (e + 1) (Nat.succ_le_succ (Nat.zero_le e)) heN
      rw [show collectTokens path line (fuel + 1) (e + 1) =
            collectTokens path line fuel (path.getD (e + 1) Edge.zero).S ++
              [(line.drop (path.getD (e + 1) Edge.zero).S).take
                (e + 1 - (path.getD (e + 1) Edge.zero).S)] from rfl]
      rw [List.length_append]
      rw [ih (path.getD (e + 1) Edge.zero).S (by omega) (by omega)]
      rw [show ([(line.drop (path.getD (e + 1) Edge.zero).S).take
              (e + 1 - (path.getD (e + 1) Edge.zero).S)] : List (List Char)).length = 1
            from rfl]
      exact hwc

/-- Shared helper: the concatenation of `Segment`'s tokens is the line. -/
lemma segment_flatten (dict : PrefixTree) (line : List Char) :
    (Segment dict line).flatten = line := by
  have hinv := buildPath_scanInv dict line
  have hplen : (BuildPath dict line).path.length = line.length + 1 := hinv.plen
  show (collectTokens (BuildPath dict line).path line (BuildPath dict line).path.length
      ((BuildPath dict line).path.length - 1)).flatten = line
  rw [hplen]
  rw [show line.length + 1 - 1 = line.length from rfl]
  rw [collectTokens_flatten (BuildPath dict line).path line line.length hinv.chain
    (line.length + 1) line.length (Nat.le_refl _) (Nat.le_succ _)]
  exact List.take_length line

/-- Shared helper: `Segment` returns `E[N].WordCount` tokens. -/
lemma segment_length (dict : PrefixTree) (line : List Char) :
    (Segment dict line).length =
      ((BuildPath dict line).path.getD line.length Edge.zero).WordCount := by
  have hinv := buildPath_scanInv dict line
  have hplen : (BuildPath dict line).path.length = line.length + 1 := hinv.plen
  show (collectTokens (BuildPath dict line).path line (BuildPath dict line).path.length
      ((BuildPath dict line).path.length - 1)).length =
    ((BuildPath dict line).path.getD line.length Edge.zero).WordCount
  rw [hplen]
  rw [show line.length + 1 - 1 = line.length from rfl]
  exact collectTokens_length (BuildPath dict line).path line line.length hinv.chain
    hinv.p0 (line.length + 1) line.length (Nat.le_refl _) (Nat.le_succ _)

/-! ## The carried `foundSpace` flag is always false when `BuildPath` returns -/

lemma finishStep_foundSpace (i : Nat) (st : SegState) (b : Edge × Bool) :
    (finishStep i st b).foundSpace = st.foundSpace := by
  unfold finishStep
  split <;> rfl

lemma stepLatin_foundSpace (length i : Nat) (st : SegState) :
    (stepLatin length i st).foundSpace = false := by
  unfold stepLatin
  cases hcond : (i == length - 1) with
  | true =>
    rw [latinClose_last length i _ hcond, finishStep_foundSpace]
    show (openLatin i (flushSpace i st)).foundSpace = false
    rw [openLatin_foundSpace, flushSpace_foundSpace]
  | false =>
    rw [latinClose_mid length i _ hcond, finishStep_foundSpace,
      openLatin_foundSpace, flushSpace_foundSpace]

lemma stepSpace_foundSpace_last (length i : Nat) (st : SegState)
    (h : (i == length - 1) = true) :
    (stepSpace length i st).foundSpace = false := by
  unfold stepSpace
  rw [spaceClose_last length i _ h, finishStep_foundSpace]

lemma stepText_eq (dict : PrefixTree) (ch : Char) (i : Nat) (st : SegState) :
    stepText dict ch i st =
      finishStep i
        { flushLatin i (flushSpace i st) with
          pointers := advancePointers dict ch (flushLatin i (flushSpace i st)).pointers }
        (chooseBest (Edge.zero, false)
          (dictCandidates (flushLatin i (flushSpace i st)).path i
            (advancePointers dict ch (flushLatin i (flushSpace i st)).pointers))) := rfl

lemma stepText_foundSpace (dict : PrefixTree) (ch : Char) (i : Nat) (st : SegState) :
    (stepText dict ch i st).foundSpace = false := by
  rw [stepText_eq, finishStep_foundSpace]
  show (flushLatin i (flushSpace i st)).foundSpace = false
  rw [flushLatin_foundSpace, flushSpace_foundSpace]

lemma step_last_foundSpace (dict : PrefixTree) (N i : Nat) (ch : Char) (st : SegState)
    (h : i + 1 = N) : (step dict N i ch st).foundSpace = false := by
  have hcond : (i == N - 1) = true := by
    subst h
    simp
  unfold step
  split
  · exact stepLatin_foundSpace N i st
  · split
    · exact stepSpace_foundSpace_last N i st hcond
    · exact stepText_foundSpace dict ch i st

lemma scan_foundSpace (dict : PrefixTree) (N : Nat) :
    ∀ (cs : List Char) (i : Nat) (st : SegState), cs ≠ [] → i + cs.length = N →
      (scan dict N st i cs).foundSpace = false := by
  intro cs
  induction cs with
  | nil =>
    intro i st hne _
    cases hne rfl
  | cons c cs ih =>
    intro i st _ hlen
    rw [show scan dict N st i (c :: cs) = scan dict N (step dict N i c st) (i + 1) cs from rfl]
    cases cs with
    | nil =>
      rw [show scan dict N (step dict N i c st) (i + 1) [] = step dict N i c st from rfl]
      exact step_last_foundSpace dict N i c st (by simpa using hlen)
    | cons c2 cs2 =>
      exact ih (i + 1) _ (by simp) (by simp at hlen ⊢; omega)

lemma buildPathFrom_foundSpace (dict : PrefixTree) (line : List Char) :
    (BuildPathFrom dict false line).foundSpace = false := by
  cases line with
  | nil => rfl
  | cons c cs =>
    exact scan_foundSpace dict (c :: cs).length (c :: cs) 0 _ (by simp) (by simp)

lemma segmentFrom_false (dict : PrefixTree) (line : List Char) :
    SegmentFrom dict false line = (Segment dict line, false) := by
  show (collectTokens (BuildPathFrom dict false line).path line
          (BuildPathFrom dict false line).path.length
          ((BuildPathFrom dict false line).path.length - 1),
        (BuildPathFrom dict false line).foundSpace) = (Segment dict line, false)
  rw [buildPathFrom_foundSpace]
  rfl

/-! ## Segmentation against the empty trie collapses text runs to one unknown -/

lemma advancePointers_nil (ch : Char) (ptrs : List DictBuilderPointer) :
    advancePointers [] ch ptrs = [] := by
  unfold advancePointers
  rw [List.filterMap_eq_nil_iff]
  intro p _
  rfl

/-- State invariant while scanning an all-text line against the empty
trie: every written cell is the unknown edge `(0, 1, 1)` anchored at the
never-moving `leftBoundary = 0`. -/
structure UnkInv (N i : Nat) (st : SegState) : Prop where
  plen : st.path.length = N + 1
  cells : ∀ j : Nat, st.path.getD j Edge.zero =
    if 1 ≤ j ∧ j ≤ i then ⟨0, 1, 1⟩ else Edge.zero
  lb : st.leftBoundary = 0
  fl : st.foundLatin = false
  fs : st.foundSpace = false
  ptrs : st.pointers = []

lemma initState_unk (N : Nat) : UnkInv N 0 (initState false N) := by
  refine ⟨by simp [initState], ?_, rfl, rfl, rfl, rfl⟩
  intro j
  have : (List.replicate (N + 1) Edge.zero).getD j Edge.zero = Edge.zero := by
    rw [List.getD_eq_getElem?_getD, List.getElem?_replicate]
    split <;> rfl
  rw [show (initState false N).path = List.replicate (N + 1) Edge.zero from rfl, this]
  rw [if_neg (by omega)]

lemma stepText_unk (N i : Nat) (ch : Char) (st : SegState)
    (h : UnkInv N i st) (hiN : i < N) :
    UnkInv N (i + 1) (stepText [] ch i st) := by
  have hfsp : flushSpace i st = st := by
    unfold flushSpace
    rw [if_neg (by rw [h.fs]; exact Bool.false_ne_true)]
  have hflt : flushLatin i st = st := by
    unfold flushLatin
    rw [if_neg (by rw [h.fl]; exact Bool.false_ne_true)]
  rw [stepText_eq, hfsp, hflt, advancePointers_nil]
  rw [show dictCandidates st.path i [] = [] from rfl]
  rw [show chooseBest (Edge.zero, false) [] = (Edge.zero, false) from rfl]
  have hfin : finishStep i ({ st with pointers := [] } : SegState) (Edge.zero, false) =
      { st with pointers := [], path := st.path.set (i + 1) (unkEdge st.path st.leftBoundary) } := rfl
  rw [hfin]
  have hv : unkEdge st.path st.leftBoundary = ⟨0, 1, 1⟩ := by
    rw [h.lb]
    show (⟨0, (st.path.getD 0 Edge.zero).WordCount + 1,
      (st.path.getD 0 Edge.zero).UnkCount + 1⟩ : Edge) = ⟨0, 1, 1⟩
    rw [h.cells 0, if_neg (by omega)]
    rfl
  refine ⟨?_, ?_, h.lb, h.fl, h.fs, rfl⟩
  · show (st.path.set (i + 1) (unkEdge st.path st.leftBoundary)).length = N + 1
    rw [List.length_set]
    exact h.plen
  · intro j
    show (st.path.set (i + 1) (unkEdge st.path st.leftBoundary)).getD j Edge.zero = _
    by_cases hj : j = i + 1
    · rw [hj, getD_set_self st.path (i + 1) _ (by rw [h.plen]; omega), hv,
        if_pos (by omega)]
    · rw [getD_set_ne st.path (i + 1) j _ (fun he => hj he.symm), h.cells j]
      by_cases hcond : 1 ≤ j ∧ j ≤ i
      · rw [if_pos hcond, if_pos (by omega)]
      · rw [if_neg hcond, if_neg (by omega)]

lemma scan_unk (N : Nat) :
    ∀ (cs : List Char) (i : Nat) (st : SegState),
      (∀ ch ∈ cs, IsLatin ch = false ∧ IsSpace ch = false) →
      i + cs.length = N → UnkInv N i st → UnkInv N N (scan [] N st i cs) := by
  intro cs
  induction cs with
  | nil =>
    intro i st _ hlen hinv
    simp at hlen
    rw [show scan [] N st i [] = st from rfl]
    exact hlen ▸ hinv
  | cons c cs ih =>
    intro i st hcls hlen hinv
    obtain ⟨⟨hL, hS⟩, hcls'⟩ : (IsLatin c = false ∧ IsSpace c = false) ∧
        ∀ ch ∈ cs, IsLatin ch = false ∧ IsSpace ch = false := by
      refine ⟨hcls c (List.mem_cons_self c cs), ?_⟩
      intro ch hch
      exact hcls ch (List.mem_cons_of_mem c hch)
    have hstep : step [] N i c st = stepText [] c i st := by
      unfold step
      rw [if_neg (by rw [hL]; exact Bool.false_ne_true),
        if_neg (by rw [hS]; exact Bool.false_ne_true)]
    rw [show scan [] N st i (c :: cs) = scan [] N (step [] N i c st) (i + 1) cs from rfl,
      hstep]
    refine ih (i + 1) _ hcls' (by simp at hlen ⊢; omega) ?_
    exact stepText_unk N i c st hinv (by simp at hlen; omega)

/-! ## The tie-break order of the best-edge fold -/

/-- The cost preorder the comparison of `main.go` lines 354-355 tests:
`(UnkCount, WordCount)` compared lexicographically, non-strict. -/
def costLe (a b : Edge) : Prop :=
  a.UnkCount < b.UnkCount ∨ (a.UnkCount = b.UnkCount ∧ a.WordCount ≤ b.WordCount)

lemma costLe_refl (a : Edge) : costLe a a := Or.inr ⟨rfl, Nat.le_refl _⟩

lemma costLe_trans {a b c : Edge} (hab : costLe a b) (hbc : costLe b c) : costLe a c := by
  unfold costLe at *
  omega

lemma costLe_of_not {a b : Edge} (h : ¬ costLe a b) : costLe b a := by
  unfold costLe at *
  omega

lemma betterEdge_iff (c b : Edge) : betterEdge c b = true ↔ costLe c b := by
  unfold betterEdge costLe
  simp

lemma chooseBest_spec :
    ∀ (cs : List Edge) (best : Edge),
      List.Pairwise (fun a b => a.S < b.S) (best :: cs) →
      ∃ r, chooseBest (best, true) cs = (r, true) ∧
        (r = best ∨ r ∈ cs) ∧
        (costLe r best ∧ ∀ c ∈ cs, costLe r c) ∧
        (∀ c, (c = best ∨ c ∈ cs) → c.UnkCount = r.UnkCount → c.WordCount = r.WordCount →
          c.S ≤ r.S) := by
  intro cs
  induction cs with
  | nil =>
    intro best _
    refine ⟨best, rfl, Or.inl rfl, ⟨costLe_refl best, by simp⟩, ?_⟩
    intro c hc _ _
    rcases hc with rfl | hc
    · exact Nat.le_refl _
    · cases hc
  | cons c cs ih =>
    intro best hpw
    have hstep : chooseBest (best, true) (c :: cs) =
        if betterEdge c best then chooseBest (c, true) cs else chooseBest (best, true) cs := by
      show (if !true then chooseBest (c, true) cs
            else if betterEdge c best then chooseBest (c, true) cs
            else chooseBest (best, true) cs) = _
      simp
    have hbfirst : ∀ y ∈ c :: cs, best.S < y.S := (List.pairwise_cons.mp hpw).1
    cases hbc : betterEdge c best with
    | true =>
      have hcb : costLe c best := (betterEdge_iff c best).mp hbc
      rw [hstep, if_pos hbc]
      have hpw' : List.Pairwise (fun a b => a.S < b.S) (c :: cs) :=
        (List.pairwise_cons.mp hpw).2
      obtain ⟨r, heq, hmem, ⟨hrc, hrall⟩, hmax⟩ := ih c hpw'
      have hrmem : r ∈ c :: cs := by
        rcases hmem with hr | hr
        · rw [hr]
          exact List.mem_cons_self c cs
        · exact List.mem_cons_of_mem c hr
      refine ⟨r, heq, Or.inr hrmem, ⟨costLe_trans hrc hcb, ?_⟩, ?_⟩
      · intro c' hc'
        rcases List.mem_cons.mp hc' with rfl | hc'
        · exact hrc
        · exact hrall c' hc'
      · intro c' hc' hu hw
        rcases hc' with rfl | hc'
        · exact Nat.le_of_lt (hbfirst r hrmem)
        · rcases List.mem_cons.mp hc' with rfl | hc'
          · exact hmax c' (Or.inl rfl) hu hw
          · exact hmax c' (Or.inr hc') hu hw
    | false =>
      have hnc : ¬ costLe c best := by
        rw [← betterEdge_iff, hbc]
        exact Bool.false_ne_true
      rw [hstep, if_neg (by rw [hbc]; exact Bool.false_ne_true)]
      have hpw' : List.Pairwise (fun a b => a.S < b.S) (best :: cs) := by
        rw [List.pairwise_cons]
        refine ⟨?_, ((List.pairwise_cons.mp hpw).2.sublist (List.sublist_cons_self c cs))⟩
        intro y hy
        exact hbfirst y (List.mem_cons_of_mem c hy)
      obtain ⟨r, heq, hmem, ⟨hrb, hrall⟩, hmax⟩ := ih best hpw'
      refine ⟨r, heq, ?_, ⟨hrb, ?_⟩, ?_⟩
      · rcases hmem with rfl | hr
        · exact Or.inl rfl
        · exact Or.inr (List.mem_cons_of_mem c hr)
      · intro c' hc'
        rcases List.mem_cons.mp hc' with rfl | hc'
        · exact costLe_trans hrb (costLe_of_not hnc)
        · exact hrall c' hc'
      · intro c' hc' hu hw
        rcases hc' with rfl | hc'
        · exact hmax c' (Or.inl rfl) hu hw
        · rcases List.mem_cons.mp hc' with rfl | hc'
          · exfalso
            apply hnc
            have : costLe c' best := by
              unfold costLe
              rw [hu, hw]
              exact hrb
            exact this
          · exact hmax c' (Or.inr hc') hu hw

/-! ## Trie transitions keyed by Latin or space codepoints are never consulted -/

/-- Remove from the trie every transition whose key codepoint is Latin or
space class. -/
def textKeyOnly : PrefixTree → PrefixTree
  | [] => []
  | (k, v) :: rest =>
    if IsLatin k.Ch || IsSpace k.Ch then textKeyOnly rest
    else (k, v) :: textKeyOnly rest

lemma ptLookup_textKeyOnly (t : PrefixTree) (k : PrefixTreeNode)
    (hk : (IsLatin k.Ch || IsSpace k.Ch) = false) :
    ptLookup (textKeyOnly t) k = ptLookup t k := by
  induction t with
  | nil => rfl
  | cons kv rest ih =>
    obtain ⟨k', v⟩ := kv
    show ptLookup (if IsLatin k'.Ch || IsSpace k'.Ch then textKeyOnly rest
        else (k', v) :: textKeyOnly rest) k =
      (if k' = k then some v else ptLookup rest k)
    by_cases hcl : (IsLatin k'.Ch || IsSpace k'.Ch) = true
    · rw [if_pos hcl]
      have hne : k' ≠ k := by
        intro he
        rw [he, hk] at hcl
        cases hcl
      rw [if_neg hne]
      exact ih
    · rw [if_neg hcl]
      show (if k' = k then some v else ptLookup (textKeyOnly rest) k) = _
      by_cases he : k' = k
      · rw [if_pos he, if_pos he]
      · rw [if_neg he, if_neg he]
        exact ih

lemma advancePointers_textKeyOnly (dict : PrefixTree) (ch : Char)
    (ptrs : List DictBuilderPointer) (hch : (IsLatin ch || IsSpace ch) = false) :
    advancePointers (textKeyOnly dict) ch ptrs = advancePointers dict ch ptrs := by
  unfold advancePointers
  have hf : (fun (p : DictBuilderPointer) =>
      match ptLookup (textKeyOnly dict) ⟨p.NodeID, p.Offset, ch⟩ with
      | none => none
      | some child =>
        some (⟨child.ChildID, p.Offset + 1, child.IsFinal⟩ : DictBuilderPointer)) =
      (fun (p : DictBuilderPointer) =>
      match ptLookup dict ⟨p.NodeID, p.Offset, ch⟩ with
      | none => none
      | some child =>
        some (⟨child.ChildID, p.Offset + 1, child.IsFinal⟩ : DictBuilderPointer)) := by
    funext p
    rw [ptLookup_textKeyOnly dict ⟨p.NodeID, p.Offset, ch⟩ hch]
  rw [hf]

lemma step_textKeyOnly (dict : PrefixTree) (N i : Nat) (ch : Char) (st : SegState) :
    step (textKeyOnly dict) N i ch st = step dict N i ch st := by
  unfold step
  by_cases hL : IsLatin ch = true
  · rw [if_pos hL, if_pos hL]
  · rw [if_neg hL, if_neg hL]
    by_cases hS : IsSpace ch = true
    · rw [if_pos hS, if_pos hS]
    · rw [if_neg hS, if_neg hS]
      have hch : (IsLatin ch || IsSpace ch) = false := by
        rw [Bool.eq_false_iff.mpr hL, Bool.eq_false_iff.mpr hS]
        rfl
      rw [stepText_eq, stepText_eq, advancePointers_textKeyOnly dict ch _ hch]

lemma scan_textKeyOnly (dict : PrefixTree) (N : Nat) :
    ∀ (cs : List Char) (i : Nat) (st : SegState),
      scan (textKeyOnly dict) N st i cs = scan dict N st i cs := by
  intro cs
  induction cs with
  | nil => intro i st; rfl
  | cons c cs ih =>
    intro i st
    rw [show scan (textKeyOnly dict) N st i (c :: cs) =
          scan (textKeyOnly dict) N (step (textKeyOnly dict) N i c st) (i + 1) cs from rfl]
    rw [step_textKeyOnly, ih]
    rfl

lemma buildPath_textKeyOnly (dict : PrefixTree) (line : List Char) :
    BuildPath (textKeyOnly dict) line = BuildPath dict line := by
  unfold BuildPath BuildPathFrom
  exact scan_textKeyOnly dict line.length line 0 (initState false line.length)

/-! ## Claim theorems -/

/-- Claim C1: for every dictionary trie `t` and every input line, the
concatenation, in order, of the tokens returned by `Segment` equals the
line exactly, so the tokens partition the line's codepoint sequence. -/
theorem segment_concat_restores_line (t : PrefixTree) (line : List Char) :
    (Segment t line).flatten = line :=
  segment_flatten t line

/-- Claim C2, counterexample: with the dictionary `AB, AC, D` and the line
`ABDAC`, `Segment` does NOT return the tokens `AB, D, AC` claimed by the
spec: all five codepoints are Latin letters, so the whole line is consumed
as a single Latin run and the dictionary is never consulted. -/
theorem segment_abdac_counterexample :
    Segment (MakePrefixTree [['A','B'],['A','C'],['D']]) ['A','B','D','A','C'] ≠
      [['A','B'],['D'],['A','C']] := by
  decide

/-- Claim C2, amended: with the dictionary `AB, AC, D` and the line
`ABDAC`, `Segment` returns the single Latin-run token `ABDAC`, because
every codepoint of the line is Latin class and dictionary matching is
only performed at text-class codepoints. -/
theorem segment_abdac_latin_run :
    Segment (MakePrefixTree [['A','B'],['A','C'],['D']]) ['A','B','D','A','C'] =
      [['A','B','D','A','C']] := by
  decide

/-- Claim C3, counterexample: with dictionary `ก, กก` and line `กกก`, at
position 2 the two candidate dictionary edges `(1,2,0)` and `(2,2,0)` have
equal `UnkCount` and equal `WordCount`, yet the edge written to the path
array is `(2,2,0)` — the SHORTEST match (greatest start index), produced
by the live pointer of least depth — not the longest match `(1,2,0)` the
claim asserts; the resulting tokens are `กก, ก` and not `ก, กก`. -/
theorem buildpath_tie_counterexample :
    dictCandidates
        (scan (MakePrefixTree [['ก'],['ก','ก']]) 3 (initState false 3) 0 ['ก','ก']).path 2
        (advancePointers (MakePrefixTree [['ก'],['ก','ก']]) 'ก'
          (scan (MakePrefixTree [['ก'],['ก','ก']]) 3 (initState false 3) 0 ['ก','ก']).pointers) =
      [⟨1,2,0⟩, ⟨2,2,0⟩] ∧
    ((BuildPath (MakePrefixTree [['ก'],['ก','ก']]) ['ก','ก','ก']).path.getD 3 Edge.zero) =
      ⟨2,2,0⟩ ∧
    ((BuildPath (MakePrefixTree [['ก'],['ก','ก']]) ['ก','ก','ก']).path.getD 3 Edge.zero) ≠
      ⟨1,2,0⟩ ∧
    Segment (MakePrefixTree [['ก'],['ก','ก']]) ['ก','ก','ก'] = [['ก','ก'],['ก']] := by
  decide

/-- Claim C3, amended: candidate dictionary edges are evaluated in order
of strictly increasing start index (live pointers of decreasing depth
first), and the non-strict `WordCount` comparison lets every later
equal-cost candidate replace the current best; hence the edge finally
selected is cost-minimal, and among candidates of equal `UnkCount` and
`WordCount` it is the one of GREATEST start index, i.e. the shortest
match, produced by the live pointer of least depth. -/
theorem chooseBest_ties_pick_shortest (cs : List Edge) (hne : cs ≠ [])
    (hpw : List.Pairwise (fun a b => a.S < b.S) cs) :
    ∃ r, chooseBest (Edge.zero, false) cs = (r, true) ∧ r ∈ cs ∧
      (∀ c ∈ cs, costLe r c) ∧
      (∀ c ∈ cs, c.UnkCount = r.UnkCount → c.WordCount = r.WordCount → c.S ≤ r.S) := by
  cases cs with
  | nil => cases hne rfl
  | cons c cs =>
    rw [chooseBest_start_false]
    obtain ⟨r, heq, hmem, ⟨hrb, hrall⟩, hmax⟩ := chooseBest_spec cs c hpw
    have hrmem : r ∈ c :: cs := by
      rcases hmem with hr | hr
      · rw [hr]
        exact List.mem_cons_self c cs
      · exact List.mem_cons_of_mem c hr
    refine ⟨r, heq, hrmem, ?_, ?_⟩
    · intro c' hc'
      rcases List.mem_cons.mp hc' with rfl | hc'
      · exact hrb
      · exact hrall c' hc'
    · intro c' hc' hu hw
      rcases List.mem_cons.mp hc' with rfl | hc'
      · exact hmax c' (Or.inl rfl) hu hw
      · exact hmax c' (Or.inr hc') hu hw

/-- Claim C3, witness: the amended theorem applied to the candidate list
of the counterexample position. -/
theorem chooseBest_ties_pick_shortest_witness :
    ∃ r, chooseBest (Edge.zero, false) [⟨1,2,0⟩, ⟨2,2,0⟩] = (r, true) ∧
      r ∈ ([⟨1,2,0⟩, ⟨2,2,0⟩] : List Edge) ∧
      (∀ c ∈ ([⟨1,2,0⟩, ⟨2,2,0⟩] : List Edge), costLe r c) ∧
      (∀ c ∈ ([⟨1,2,0⟩, ⟨2,2,0⟩] : List Edge),
        c.UnkCount = r.UnkCount → c.WordCount = r.WordCount → c.S ≤ r.S) :=
  chooseBest_ties_pick_shortest [⟨1,2,0⟩, ⟨2,2,0⟩] (by decide)
    (by simp [List.pairwise_cons])

/-- Claim C4: after `BuildPath` finishes on a line of `N` codepoints, every
cell `i` in `[1, N]` of the final edge array has a back pointer strictly
to its left and a word count one more than its source cell's, so the
back-pointer chain from `N` is well founded despite the provisional
writes later overwritten by Latin/space run edges. -/
theorem buildpath_backpointer_chain (t : PrefixTree) (line : List Char) (i : Nat)
    (h1 : 1 ≤ i) (hN : i ≤ line.length) :
    ((BuildPath t line).path.getD i Edge.zero).S < i ∧
    ((BuildPath t line).path.getD
        ((BuildPath t line).path.getD i Edge.zero).S Edge.zero).WordCount + 1 =
      ((BuildPath t line).path.getD i Edge.zero).WordCount :=
  (buildPath_scanInv t line).chain i h1 hN

/-- Claim C4, witness: the chain conditions hold at cell 2 of the edge
array built for the line `กข` against the dictionary `ก`. -/
theorem buildpath_backpointer_chain_witness :
    ((BuildPath (MakePrefixTree [['ก']]) ['ก','ข']).path.getD 2 Edge.zero).S < 2 ∧
    ((BuildPath (MakePrefixTree [['ก']]) ['ก','ข']).path.getD
        ((BuildPath (MakePrefixTree [['ก']]) ['ก','ข']).path.getD 2 Edge.zero).S
        Edge.zero).WordCount + 1 =
      ((BuildPath (MakePrefixTree [['ก']]) ['ก','ข']).path.getD 2 Edge.zero).WordCount :=
  buildpath_backpointer_chain (MakePrefixTree [['ก']]) ['ก','ข'] 2 (by decide) (by decide)

/-- Claim C5: for every trie and line of `N` codepoints, the number of
tokens returned by `Segment` equals the `WordCount` stored in the last
entry of the edge array built for the line. -/
theorem segment_token_count (t : PrefixTree) (line : List Char) :
    (Segment t line).length =
      ((BuildPath t line).path.getD line.length Edge.zero).WordCount :=
  segment_length t line

/-- Claim C6: with the dictionary `กา, กาแฟ, แฟ` and the line `กาแฟ`,
`Segment` returns the single token `กาแฟ`: the last position's candidates
are the edge `(0,1,0)` of `กาแฟ` and the edge `(2,2,0)` of `กา + แฟ`, both
with `UnkCount` 0, and the one-token partition wins on `WordCount`. -/
theorem segment_coffee_longest :
    dictCandidates
        (scan (MakePrefixTree [['ก','า'],['ก','า','แ','ฟ'],['แ','ฟ']]) 4
          (initState false 4) 0 ['ก','า','แ']).path 3
        (advancePointers (MakePrefixTree [['ก','า'],['ก','า','แ','ฟ'],['แ','ฟ']]) 'ฟ'
          (scan (MakePrefixTree [['ก','า'],['ก','า','แ','ฟ'],['แ','ฟ']]) 4
            (initState false 4) 0 ['ก','า','แ']).pointers) = [⟨0,1,0⟩, ⟨2,2,0⟩] ∧
    ((BuildPath (MakePrefixTree [['ก','า'],['ก','า','แ','ฟ'],['แ','ฟ']])
        ['ก','า','แ','ฟ']).path.getD 4 Edge.zero) = ⟨0,1,0⟩ ∧
    Segment (MakePrefixTree [['ก','า'],['ก','า','แ','ฟ'],['แ','ฟ']]) ['ก','า','แ','ฟ'] =
      [['ก','า','แ','ฟ']] := by
  decide

/-- Claim C7: against the trie built from the empty word list, every
non-empty line consisting entirely of text-class codepoints (neither
Latin nor space) is returned as one single token equal to the whole line,
counted as exactly one unknown, because `leftBoundary` advances only when
a non-fallback edge is chosen. -/
theorem segment_empty_trie_single_unknown (line : List Char) (hne : line ≠ [])
    (hcls : ∀ ch ∈ line, IsLatin ch = false ∧ IsSpace ch = false) :
    Segment (MakePrefixTree []) line = [line] ∧
    ((BuildPath (MakePrefixTree []) line).path.getD line.length Edge.zero).UnkCount = 1 := by
  have hU : UnkInv line.length line.length (BuildPath (MakePrefixTree []) line) := by
    have hrw : BuildPath (MakePrefixTree []) line =
        scan [] line.length (initState false line.length) 0 line := rfl
    rw [hrw]
    exact scan_unk line.length line 0 _ hcls (by simp) (initState_unk line.length)
  obtain ⟨k, hk⟩ : ∃ k, line.length = k + 1 := by
    cases line with
    | nil => cases hne rfl
    | cons c cs => exact ⟨cs.length, rfl⟩
  constructor
  · show collectTokens (BuildPath (MakePrefixTree []) line).path line
        (BuildPath (MakePrefixTree []) line).path.length
        ((BuildPath (MakePrefixTree []) line).path.length - 1) = [line]
    rw [hU.plen, hk]
    rw [show k + 1 + 1 - 1 = k + 1 from rfl]
    rw [show collectTokens (BuildPath (MakePrefixTree []) line).path line (k + 1 + 1) (k + 1) =
          collectTokens (BuildPath (MakePrefixTree []) line).path line (k + 1)
            ((BuildPath (MakePrefixTree []) line).path.getD (k + 1) Edge.zero).S ++
            [(line.drop
                ((BuildPath (MakePrefixTree []) line).path.getD (k + 1) Edge.zero).S).take
              (k + 1 -
                ((BuildPath (MakePrefixTree []) line).path.getD (k + 1) Edge.zero).S)]
          from rfl]
    have hSe : ((BuildPath (MakePrefixTree []) line).path.getD (k + 1) Edge.zero).S = 0 := by
      rw [hU.cells (k + 1), if_pos (by omega)]
    rw [hSe]
    rw [show collectTokens (BuildPath (MakePrefixTree []) line).path line (k + 1) 0 = []
          from rfl]
    rw [List.nil_append, List.drop_zero, Nat.sub_zero, ← hk, List.take_length]
  · rw [hU.cells line.length, if_pos (by omega)]

/-- Claim C7, witness: the empty-trie theorem applied to the one-character
Thai line `ก`. -/
theorem segment_empty_trie_single_unknown_witness :
    Segment (MakePrefixTree []) ['ก'] = [['ก']] ∧
    ((BuildPath (MakePrefixTree []) ['ก']).path.getD 1 Edge.zero).UnkCount = 1 :=
  segment_empty_trie_single_unknown ['ก'] (by decide) (by decide)

/-- Claim C8: for every trie, `Segment` of the empty line is the empty
token sequence, and segmentation is a total function that always yields a
well-formed partition (its tokens concatenate back to the input line). -/
theorem segment_empty_line_total (t : PrefixTree) :
    Segment t [] = [] ∧ ∀ line : List Char, (Segment t line).flatten = line :=
  ⟨rfl, fun line => segment_flatten t line⟩

/-- Claim C9: reusing one segmenter across successive lines is equivalent
to a fresh segmenter per line: threading the carried `foundSpace` flag
(the one scan flag the reset block of `BuildPath` does not reset) from a
fresh start through successive calls returns exactly the tokens fresh
segmenters would, because the flag is false again whenever a call
returns. -/
theorem segment_reuse_equiv (t : PrefixTree) (lines : List (List Char)) :
    segmentAll t false lines = lines.map (Segment t) := by
  induction lines with
  | nil => rfl
  | cons l ls ih =>
    show (SegmentFrom t false l).1 :: segmentAll t (SegmentFrom t false l).2 ls =
      Segment t l :: ls.map (Segment t)
    rw [segmentFrom_false, ih]

/-- Claim C10, counterexample: with the dictionary containing only the
all-text word `กก` and the line `ก A ก`, the live pointer opened at
position 0 survives the Latin codepoint `A` untouched, completes `กก` at
position 2, and its candidate edge `(1,2,1)` is written as the final edge
of position 3; the token it selects, `Aก`, contains the Latin codepoint
`A`, refuting that tokens selected via dictionary edges consist solely of
text-class codepoints. -/
theorem dict_edge_token_latin_counterexample :
    IsLatin 'A' = true ∧
    dictCandidates (scan (MakePrefixTree [['ก','ก']]) 3 (initState false 3) 0 ['ก','A']).path 2
        (advancePointers (MakePrefixTree [['ก','ก']]) 'ก'
          (scan (MakePrefixTree [['ก','ก']]) 3 (initState false 3) 0 ['ก','A']).pointers) =
      [⟨1,2,1⟩] ∧
    ((BuildPath (MakePrefixTree [['ก','ก']]) ['ก','A','ก']).path.getD 3 Edge.zero) = ⟨1,2,1⟩ ∧
    Segment (MakePrefixTree [['ก','ก']]) ['ก','A','ก'] = [['ก'],['A','ก']] := by
  decide

/-- Claim C10, amended: trie lookups are performed only at codepoints
classified as text (neither Latin nor space): removing from the trie every
transition keyed by a Latin or space-class codepoint changes neither the
edge array nor the tokens, for every trie and line.  (A token selected via
a dictionary edge may still span Latin/space codepoints skipped by a
surviving live pointer, as the counterexample shows.) -/
theorem trie_lookups_text_only (t : PrefixTree) (line : List Char) :
    BuildPath (textKeyOnly t) line = BuildPath t line ∧
    Segment (textKeyOnly t) line = Segment t line := by
  refine ⟨buildPath_textKeyOnly t line, ?_⟩
  show collectTokens (BuildPath (textKeyOnly t) line).path line
      (BuildPath (textKeyOnly t) line).path.length
      ((BuildPath (textKeyOnly t) line).path.length - 1) =
    collectTokens (BuildPath t line).path line
      (BuildPath t line).path.length
      ((BuildPath t line).path.length - 1)
  rw [buildPath_textKeyOnly]
